import Mathlib

/-!
Shallow embedding of `src/HtmlParser.js` (a regex-based HTML extractor).

Strings are modelled as `List Char` at the core, with `String` wrappers
mirroring the JavaScript static methods.  The JavaScript regexes used by the
code are all of a fixed shape (literals, `[^>]*` / `[^"]*` stars, and `\b`
word boundaries, under the case-insensitive `i` flag), so they are embedded by
a small backtracking matcher (`pmatch`) that follows the semantics of a
backtracking regex engine: leftmost match, greedy stars tried longest-first.
All recursions are structural (explicit fuel where the JS loop advances a
cursor), so every definition evaluates by `decide` / `rfl`.
-/

/-- Case-insensitive character comparison, as the JS `i` flag performs on ASCII. -/
def charEqCI (a b : Char) : Bool := a.toLower == b.toLower

/-- Case-insensitive prefix test: `prefixCI p t` holds when `p` matches the start of `t`. -/
def prefixCI : List Char → List Char → Bool
  | [], _ => true
  | _ :: _, [] => false
  | p :: ps, t :: ts => charEqCI p t && prefixCI ps ts

/-- JS `\w` character class: `[A-Za-z0-9_]`. -/
def wordChar (c : Char) : Bool := c.isAlpha || c.isDigit || c = '_'

/-- Word-boundary test between an optional previous and next character (JS `\b`). -/
def isBoundary (prev next : Option Char) : Bool :=
  (match prev with | some c => wordChar c | none => false)
    != (match next with | some c => wordChar c | none => false)

/-- Last character of `consumed` if nonempty, else the old previous character. -/
def prevAfter (consumed : List Char) (prev : Option Char) : Option Char :=
  match consumed.getLast? with
  | some c => some c
  | none => prev

/-- Index of the first `>` in a list, if any (the end of a greedy `[^>]*>` piece). -/
def findGt : List Char → Option Nat
  | [] => none
  | c :: rest => if c = '>' then some 0 else (findGt rest).map (· + 1)

/-- Atoms of the fixed regex shapes used by the source: case-insensitive
literals, greedy character-class stars, and word boundaries. -/
inductive Pat where
  | lit : List Char → Pat
  | star : (Char → Bool) → Pat
  | wb : Pat

/-- Length of the maximal run of characters satisfying `f` at the head of `s`. -/
def countLeading (f : Char → Bool) (s : List Char) : Nat := (s.takeWhile f).length

/-- Greedy star backtracking: try consuming `k` characters (longest first),
running the continuation `cont` on the remainder; on failure shorten `k`. -/
def starTry (cont : Option Char → List Char → Option Nat)
    (prev : Option Char) (s : List Char) : Nat → Option Nat
  | 0 => cont prev s
  | k + 1 =>
    match cont (prevAfter (s.take (k + 1)) prev) (s.drop (k + 1)) with
    | some n => some (k + 1 + n)
    | none => starTry cont prev s k

/-- Backtracking matcher for a sequence of pattern atoms, anchored at the head
of `s`; `prev` is the character just before the current position (for `\b`).
Returns the number of characters consumed by the (greedy) match. -/
def pmatch : List Pat → Option Char → List Char → Option Nat
  | [], _, _ => some 0
  | .lit l :: ps, prev, s =>
    if prefixCI l s then
      (pmatch ps (prevAfter (s.take l.length) prev) (s.drop l.length)).map (· + l.length)
    else none
  | .wb :: ps, prev, s => if isBoundary prev s.head? then pmatch ps prev s else none
  | .star f :: ps, prev, s => starTry (pmatch ps) prev s (countLeading f s)

/-- Anchored match of the opening-tag regex `<tagName[^>]*>` (flag `i`):
`<` then the tag name case-insensitively (no delimiter required after it),
then everything up to the first `>`.  Returns the match length. -/
def matchOpenLen (tag : List Char) (s : List Char) : Option Nat :=
  match s with
  | '<' :: rest =>
    if prefixCI tag rest then
      match findGt (rest.drop tag.length) with
      | some k => some (tag.length + k + 2)
      | none => none
    else none
  | _ => none

/-- Anchored match of the closing-tag regex `</tagName>` (flag `i`). -/
def matchCloseLen (tag : List Char) (s : List Char) : Option Nat :=
  match s with
  | '<' :: '/' :: rest =>
    if prefixCI tag rest then
      match rest.drop tag.length with
      | '>' :: _ => some (tag.length + 3)
      | _ => none
    else none
  | _ => none

/-- Leftmost-match search: least index `j` at which the anchored matcher `f`
succeeds, together with `f`'s answer there (JS `String.search` / `exec`). -/
def searchAux {α : Type} (f : List Char → Option α) : List Char → Option (Nat × α)
  | [] =>
    match f [] with
    | some a => some (0, a)
    | none => none
  | c :: rest =>
    match f (c :: rest) with
    | some a => some (0, a)
    | none =>
      match searchAux f rest with
      | some (j, a) => some (j + 1, a)
      | none => none

/-- Cursor loop of `HtmlParser.extractElement`: starting after the opening tag
with `depth = 1`, repeatedly find the next opening and closing tag for
`tag`; stop when no closing tag remains (the JS `break`) or depth reaches 0,
returning the final cursor.  `fuel` only bounds the structural recursion; the
cursor strictly increases, so `html.length + 1` steps are never exhausted. -/
def extractLoop (html tag : List Char) : Nat → Nat → Nat → Nat
  | 0, _, pos => pos
  | fuel + 1, depth, pos =>
    if depth = 0 ∨ html.length ≤ pos then pos
    else
      match searchAux (matchCloseLen tag) (html.drop pos) with
      | none => pos
      | some (nc, cLen) =>
        match searchAux (matchOpenLen tag) (html.drop pos) with
        | some (no, oLen) =>
          if no < nc then extractLoop html tag fuel (depth + 1) (pos + no + oLen)
          else extractLoop html tag fuel (depth - 1) (pos + nc + cLen)
        | none => extractLoop html tag fuel (depth - 1) (pos + nc + cLen)

/-- Core of `HtmlParser.extractElement(html, startPos, tagName)`: `none` when no
opening tag for `tagName` begins exactly at `startPos`; otherwise the substring
from `startPos` up to the cursor where the scan loop stopped.  (As in the JS,
the substring is returned even when the loop stopped with unmatched depth.) -/
def extractElementL (html : List Char) (startPos : Nat) (tag : List Char) : Option (List Char) :=
  match matchOpenLen tag (html.drop startPos) with
  | none => none
  | some ol =>
    some ((html.drop startPos).take (extractLoop html tag (html.length + 1) 1 (startPos + ol) - startPos))

/-- String wrapper of `extractElementL`, mirroring `HtmlParser.extractElement`. -/
def extractElement (html : String) (startPos : Nat) (tagName : String) : Option String :=
  (extractElementL html.data startPos tagName.data).map String.mk

/-- Repeated `regex.exec` scan (flag `g`): from cursor `p`, `step` yields an
item and the next cursor (`lastIndex`); collect items until no match remains. -/
def scanFuel {α : Type} (step : Nat → Option (α × Nat)) : Nat → Nat → List α
  | 0, _ => []
  | fuel + 1, p =>
    match step p with
    | none => []
    | some (a, p') => a :: scanFuel step fuel p'

/-- Tail of the `getByClass` opening-tag regex after the tag-name group:
`[^>]*\bclass="[^"]*\b{className}\b[^"]*"[^>]*>` (flag `i`, so the class name
is also matched case-insensitively). -/
def classTail (cn : List Char) : List Pat :=
  [.star (· ≠ '>'), .wb, .lit ('c' :: 'l' :: 'a' :: 's' :: 's' :: '=' :: '"' :: []),
   .star (· ≠ '"'), .wb, .lit cn, .wb, .star (· ≠ '"'), .lit ['"'],
   .star (· ≠ '>'), .lit ['>']]

/-- Greedy length of the default tag-name group `[a-zA-Z][a-zA-Z0-9]*`. -/
def anyTagMax (s : List Char) : Nat :=
  match s with
  | c :: rest => if c.isAlpha then 1 + countLeading (fun d => d.isAlpha || d.isDigit) rest else 0
  | [] => 0

/-- Backtracking over the captured tag-name length `k` (longest first, down to
1), matching `tail` after it; returns total match length (including the
leading `<`) and the captured tag name. -/
def anyTagTry (tail : List Pat) (s : List Char) : Nat → Option (Nat × List Char)
  | 0 => none
  | k + 1 =>
    match pmatch tail (prevAfter (s.take (k + 1)) (some '<')) (s.drop (k + 1)) with
    | some n => some (1 + (k + 1) + n, s.take (k + 1))
    | none => anyTagTry tail s k

/-- Anchored match of the `getByClass` regex
`<({tag})([^>]*\bclass="[^"]*\b{className}\b[^"]*"[^>]*)>` (flags `gi`);
`tagOpt = none` is the default any-tag pattern `[a-zA-Z][a-zA-Z0-9]*`.
Returns the match length and the captured tag name. -/
def classMatchAt (tagOpt : Option (List Char)) (cn : List Char) (s : List Char) :
    Option (Nat × List Char) :=
  match s with
  | '<' :: rest =>
    match tagOpt with
    | some tag =>
      if prefixCI tag rest then
        match pmatch (classTail cn) (prevAfter (rest.take tag.length) (some '<')) (rest.drop tag.length) with
        | some n => some (1 + tag.length + n, rest.take tag.length)
        | none => none
      else none
    | none => anyTagTry (classTail cn) rest (anyTagMax rest)
  | _ => none

/-- One `regex.exec` step of the `getByClass` scan from cursor `p`: the match
index, length and captured tag name, plus the next cursor. -/
def classStep (html : List Char) (tagOpt : Option (List Char)) (cn : List Char)
    (p : Nat) : Option ((Nat × Nat × List Char) × Nat) :=
  match searchAux (classMatchAt tagOpt cn) (html.drop p) with
  | some (j, len, g1) => some ((p + j, len, g1), p + j + len)
  | none => none

/-- All `getByClass` regex matches in document order: (index, length, tag name). -/
def classMatchListL (html : List Char) (tagOpt : Option (List Char)) (cn : List Char) :
    List (Nat × Nat × List Char) :=
  scanFuel (classStep html tagOpt cn) (html.length + 2) 0

/-- Core of `HtmlParser.getByClass`: resolve each matched opening tag to its
full element span, silently skipping occurrences whose resolution fails. -/
def getByClassL (html : List Char) (cn : List Char) (tagOpt : Option (List Char)) :
    List (List Char) :=
  (classMatchListL html tagOpt cn).filterMap (fun m => extractElementL html m.1 m.2.2)

/-- String wrapper mirroring `HtmlParser.getByClass(html, className, tag?)`;
`tag = none` is the JS default any-tag pattern. -/
def getByClass (html className : String) (tag : Option String) : List String :=
  (getByClassL html.data className.data (tag.map String.data)).map String.mk

/-- One `regex.exec` step of the `getByTag` scan (`<{tag}[^>]*>`, flags `gi`). -/
def tagStep (html tag : List Char) (p : Nat) : Option (Nat × Nat) :=
  match searchAux (matchOpenLen tag) (html.drop p) with
  | some (j, len) => some (p + j, p + j + len)
  | none => none

/-- Core of the tag-scan branch of `HtmlParser.getByTag` (no class filter). -/
def getByTagL (html tag : List Char) : List (List Char) :=
  (scanFuel (tagStep html tag) (html.length + 2) 0).filterMap
    (fun i => extractElementL html i tag)

/-- Mirrors `HtmlParser.getByTag(html, tag, className = null)`: the JS
`if (className)` is truthiness, so `null` and the empty string both fall
through to the plain tag scan; otherwise it delegates to `getByClass`. -/
def getByTag (html tag : String) (className : Option String) : List String :=
  match className with
  | some cn =>
    if cn = "" then (getByTagL html.data tag.data).map String.mk
    else getByClass html cn (some tag)
  | none => (getByTagL html.data tag.data).map String.mk

/-- Tail of the `getElementById` regex after the tag-name group:
`[^>]*\bid="{id}"[^>]*>` (flag `i`). -/
def idTail (id : List Char) : List Pat :=
  [.star (· ≠ '>'), .wb, .lit ('i' :: 'd' :: '=' :: '"' :: (id ++ ['"'])),
   .star (· ≠ '>'), .lit ['>']]

/-- Anchored match of `<([a-zA-Z][a-zA-Z0-9]*)([^>]*\bid="{id}"[^>]*)>` (flag `i`). -/
def idMatchAt (id : List Char) (s : List Char) : Option (Nat × List Char) :=
  match s with
  | '<' :: rest => anyTagTry (idTail id) rest (anyTagMax rest)
  | _ => none

/-- Core of `HtmlParser.getElementById`: only the first regex match is used
(no `g` flag); the result is a 0-or-1 element list. -/
def getElementByIdL (html id : List Char) : List (List Char) :=
  match searchAux (idMatchAt id) html with
  | some (i, _, g1) =>
    match extractElementL html i g1 with
    | some e => [e]
    | none => []
  | none => []

/-- String wrapper mirroring `HtmlParser.getElementById(html, id)`. -/
def getElementById (html id : String) : List String :=
  (getElementByIdL html.data id.data).map String.mk

/-- Mirrors `HtmlParser.getAttr`'s regex `\b{attrName}="([^"]*)"` (flag `i`)
anchored at one position: word boundary, the attribute name and `="`
case-insensitively, then the captured value up to the next `"`. -/
def attrMatchAt (attr : List Char) (prev : Option Char) (s : List Char) : Option (List Char) :=
  if isBoundary prev s.head? then
    if prefixCI (attr ++ ['=', '"']) s then
      let rest := s.drop (attr.length + 2)
      if rest.contains '"' then some (rest.takeWhile (· ≠ '"')) else none
    else none
  else none

/-- First match of the `getAttr` regex anywhere in the text. -/
def getAttrAux (attr : List Char) (prev : Option Char) : List Char → Option (List Char)
  | [] => none
  | c :: rest =>
    match attrMatchAt attr prev (c :: rest) with
    | some v => some v
    | none => getAttrAux attr (some c) rest

/-- Mirrors `HtmlParser.getAttr(html, attrName)`: first captured value or absent. -/
def getAttr (html attrName : String) : Option String :=
  (getAttrAux attrName.data none html.data).map String.mk

/-- Mirrors `HtmlParser.getAttrs(elements, attrName)`: `getAttr` mapped over the list. -/
def getAttrs (elements : List String) (attrName : String) : List (Option String) :=
  elements.map (fun el => getAttr el attrName)

/-- Drop characters up to and including the first `>` (the tail of one
`<[^>]*>` match being removed). -/
def dropThroughGt : List Char → List Char
  | [] => []
  | c :: rest => if c = '>' then rest else dropThroughGt rest

/-- Global replace of `/<[^>]*>/g` by the empty string: a `<` with a later `>`
starts a match reaching the first such `>`; a `<` with no later `>` can start
no match, and then nothing after it can either. -/
def stripTagsFuel : Nat → List Char → List Char
  | 0, s => s
  | _ + 1, [] => []
  | fuel + 1, c :: rest =>
    if c = '<' then
      if rest.contains '>' then stripTagsFuel fuel (dropThroughGt rest) else c :: rest
    else c :: stripTagsFuel fuel rest

/-- Entry point of the tag-stripping replace (fuel is never exhausted). -/
def stripTags (l : List Char) : List Char := stripTagsFuel (l.length + 1) l

/-- JS `String.trim`: whitespace removed from both ends. -/
def jsTrim (l : List Char) : List Char :=
  ((l.dropWhile Char.isWhitespace).reverse.dropWhile Char.isWhitespace).reverse

/-- Mirrors `HtmlParser.getText`: strip every `<[^>]*>` match, then trim. -/
def getText (html : String) : String := String.mk (jsTrim (stripTags html.data))

/-- Verification predicate: every `<` in the list has a `>` somewhere after it
(true of any element span, which always ends in `>`).  Under this condition the
tag-stripping replace leaves no `<` behind. -/
def ltCovered : List Char → Bool
  | [] => true
  | c :: rest => (if c = '<' then rest.contains '>' else true) && ltCovered rest

/-- Characters of the selector tag-name group `[a-zA-Z0-9]`. -/
def selAlnum (c : Char) : Bool := c.isAlpha || c.isDigit

/-- Characters of the selector id/class groups `[a-zA-Z0-9_-]`. -/
def selWord (c : Char) : Bool := c.isAlpha || c.isDigit || c = '_' || c = '-'

/-- Mirrors the `querySelectorAll` selector regex
`^([a-zA-Z0-9]*)?(#[a-zA-Z0-9_-]+)?(\.[a-zA-Z0-9_-]+)?$`: the decomposition is
deterministic (each piece starts with a distinct character and the character
classes are disjoint from the delimiters), so greedy runs need no backtracking.
Returns `(tag, id?, className?)`, or `none` when the selector is rejected. -/
def parseSelector (sel : String) : Option (String × Option String × Option String) :=
  let cs := sel.data
  let t := cs.takeWhile selAlnum
  let r1 := cs.dropWhile selAlnum
  match
    (match r1 with
     | '#' :: r =>
       if (r.takeWhile selWord).isEmpty then none
       else some (some (r.takeWhile selWord), r.dropWhile selWord)
     | _ => some (none, r1)) with
  | none => none
  | some (oid, r2) =>
    match
      (match r2 with
       | '.' :: r =>
         if (r.takeWhile selWord).isEmpty then none
         else some (some (r.takeWhile selWord), r.dropWhile selWord)
       | _ => some (none, r2)) with
    | none => none
    | some (ocn, r3) =>
      if r3.isEmpty then some (String.mk t, oid.map String.mk, ocn.map String.mk)
      else none

/-- Mirrors `HtmlParser.querySelectorAll`: parse the selector, then dispatch
with the JS truthiness tests (`id`, then `tag && className`, then `className`,
then `tag`, else empty). Parsed id/class pieces are nonempty by construction,
so their truthiness is just presence; the tag piece may be the empty string. -/
def querySelectorAll (html sel : String) : List String :=
  match parseSelector sel with
  | none => []
  | some (t, oid, ocn) =>
    match oid with
    | some id => getElementById html id
    | none =>
      match ocn with
      | some cn => if t = "" then getByClass html cn none else getByClass html cn (some t)
      | none => if t = "" then [] else getByTag html t none

/-- Mirrors `HtmlParser.querySelector`: first element of `querySelectorAll` or absent. -/
def querySelector (html sel : String) : Option String :=
  (querySelectorAll html sel).head?

/-! ### Claim theorems: concrete evaluations and dispatch equivalences -/

/-- Claim C1 (code evaluation at the failing input): for the document
`<div class="x">`, which has no closing `</div>` anywhere, the code does NOT
return an absent result: `extractElement` stops at the JS `break` and returns
the truncated span consisting of just the opening tag, and both `getByClass`
and `getByTag` return that truncated span as an element.  This contradicts the
claim (and the spec's stated no-partial-span policy), so the claim marks a code
bug rather than a property of the code. -/
theorem spec_c1_unterminated_returns_partial :
    extractElement "<div class=\"x\">" 0 "div" = some "<div class=\"x\">" ∧
    getByClass "<div class=\"x\">" "x" none = ["<div class=\"x\">"] ∧
    getByTag "<div class=\"x\">" "div" none = ["<div class=\"x\">"] := by decide

/-- Claim C2 (code evaluation): tag names are indeed matched case-insensitively
(`<DIV CLASS="foo">text</DIV>` is found by `getByClass(html, "foo", "div")`),
but — contrary to the claim and to the repository's own documentation — the
`gi` regex flags make class-value matching case-insensitive as well, so
`getByClass(html, "Foo")` DOES match `class="foo"`. -/
theorem spec_c2_case_handling_eval :
    getByClass "<DIV CLASS=\"foo\">text</DIV>" "foo" (some "div")
      = ["<DIV CLASS=\"foo\">text</DIV>"] ∧
    getByClass "<div class=\"foo\">text</div>" "Foo" none
      = ["<div class=\"foo\">text</div>"] := by decide

/-- Claim C3: on `<div id="a"><div id="b">x</div>y</div>`, `getElementById`
returns the single span covering the whole outer element — including the inner
`<div id="b">x</div>` and the character `y` — ending only after the second
(outer) closing `</div>`, so depth tracking does not stop at the first one. -/
theorem spec_c3_nesting_depth :
    getElementById "<div id=\"a\"><div id=\"b\">x</div>y</div>" "a"
      = ["<div id=\"a\"><div id=\"b\">x</div>y</div>"] := by decide

/-- Claim C4 (counterexample): for the document `<p>a > b</p>`, `getByTag`
returns the whole element, and `getText` of it is `a > b`, which contains a
`>` character — refuting the claim that the result never contains `<` or `>`. -/
theorem spec_c4_counterexample :
    getByTag "<p>a > b</p>" "p" none = ["<p>a > b</p>"] ∧
    getText "<p>a > b</p>" = "a > b" ∧ '>' ∈ "a > b".data := by decide

/-- Claim C7: the opening-tag pattern `<div[^>]*>` requires no delimiter after
the tag name, so on `<divider>a</div>` the call `extractElement(html, 0, "div")`
succeeds, returning a span whose outer opening tag is the longer-named
`<divider>` closed by the `</div>` closing tag. -/
theorem spec_c7_tag_name_prefix :
    extractElement "<divider>a</div>" 0 "div" = some "<divider>a</div>" := by decide

/-- Claim C8 (counterexample): the empty string is a non-absent className, but
JS truthiness makes `getByTag(html, tag, "")` fall through to the plain tag
scan instead of delegating, so it differs from `getByClass(html, "", tag)`. -/
theorem spec_c8_counterexample :
    getByTag "<div>x</div>" "div" (some "") ≠ getByClass "<div>x</div>" "" (some "div") := by
  decide

/-- Claim C8 (amended): for every document, tag name and non-absent, NON-EMPTY
className, `getByTag(html, tag, className)` returns exactly the sequence of
`getByClass(html, className, tag)`; the empty-string className is falsy in JS
and is treated as absent. -/
theorem spec_c8_delegation (html tag cn : String) (h : cn ≠ "") :
    getByTag html tag (some cn) = getByClass html cn (some tag) := by
  unfold getByTag
  simp [h]

/-- Claim C8 witness: the amended delegation applied at a concrete input. -/
theorem spec_c8_witness :
    getByTag "<a class=\"k\">t</a>" "a" (some "k")
      = getByClass "<a class=\"k\">t</a>" "k" (some "a") :=
  spec_c8_delegation _ _ _ (by decide)

/-- Claim C10: `getAttrs` has the same length as its input and its `i`-th entry
is exactly `getAttr` of the `i`-th input element, preserving input order. -/
theorem spec_c10_getattrs_pointwise (elements : List String) (attrName : String) :
    (getAttrs elements attrName).length = elements.length ∧
    ∀ i : Nat, (getAttrs elements attrName)[i]?
      = (elements[i]?).map (fun el => getAttr el attrName) := by
  constructor
  · simp [getAttrs]
  · intro i
    simp [getAttrs]

/-- Claim C5: whenever the selector fails the grammar
`^(tagname)?(#id)?(.classname)?$`, `querySelectorAll` returns the empty list
(and never an error); in particular `.class#id` (wrong token order) and
`div p` (descendant combinator) are rejected, and the empty selector — which
matches the grammar with no pieces — also yields the empty list. -/
theorem spec_c5_invalid_selector_empty (html sel : String) :
    (parseSelector sel = none → querySelectorAll html sel = []) ∧
    querySelectorAll html ".class#id" = [] ∧
    querySelectorAll html "div p" = [] ∧
    querySelectorAll html "" = [] := by
  refine ⟨fun h => ?_, rfl, rfl, rfl⟩
  unfold querySelectorAll
  rw [h]

/-- Claim C5 witness: the rejection theorem applied at a concrete selector. -/
theorem spec_c5_witness :
    parseSelector ".x#y" = none ∧ querySelectorAll "<div>a</div>" ".x#y" = [] :=
  ⟨by decide, (spec_c5_invalid_selector_empty "<div>a</div>" ".x#y").1 (by decide)⟩

/-- Claim C6: selector dispatch priority — an `#id` piece always routes to
`getElementById` regardless of the other pieces; otherwise tag+class routes to
`getByClass(html, class, tag)`, class-only to `getByClass(html, class)`,
tag-only to `getByTag(html, tag)`; and `querySelector` is the head of
`querySelectorAll`'s result, absent when that list is empty. -/
theorem spec_c6_dispatch (html sel : String) :
    (∀ t i c, parseSelector sel = some (t, some i, c) →
      querySelectorAll html sel = getElementById html i) ∧
    (∀ t c, parseSelector sel = some (t, none, some c) → t ≠ "" →
      querySelectorAll html sel = getByClass html c (some t)) ∧
    (∀ c, parseSelector sel = some ("", none, some c) →
      querySelectorAll html sel = getByClass html c none) ∧
    (∀ t, parseSelector sel = some (t, none, none) → t ≠ "" →
      querySelectorAll html sel = getByTag html t none) ∧
    querySelector html sel = (querySelectorAll html sel).head? := by
  refine ⟨?_, ?_, ?_, ?_, rfl⟩
  · intro t i c h
    unfold querySelectorAll
    rw [h]
  · intro t c h ht
    unfold querySelectorAll
    rw [h]
    simp [ht]
  · intro c h
    unfold querySelectorAll
    rw [h]
    rfl
  · intro t h ht
    unfold querySelectorAll
    rw [h]
    simp [ht]

/-- Claim C6 witness: the dispatch theorem applied at concrete selectors with
an id piece and with tag+class pieces. -/
theorem spec_c6_witness :
    querySelectorAll "<a class=\"link\" href=\"/x\">L</a>" "a.link"
      = getByClass "<a class=\"link\" href=\"/x\">L</a>" "link" (some "a") ∧
    querySelectorAll "<div id=\"a\">x</div>" "#a"
      = getElementById "<div id=\"a\">x</div>" "a" :=
  ⟨(spec_c6_dispatch "<a class=\"link\" href=\"/x\">L</a>" "a.link").2.1 "a" "link"
      (by decide) (by decide),
   (spec_c6_dispatch "<div id=\"a\">x</div>" "#a").1 "" "a" none (by decide)⟩

/-! ### Ordering of the `getByClass` scan (claim C9) -/

/-- Every item a `scanFuel` scan emits from cursor `p` lies at offset at least `p`. -/
theorem scanFuel_pos_ge {α : Type} (step : Nat → Option (α × Nat)) (pos : α → Nat)
    (hstep : ∀ p a p', step p = some (a, p') → p ≤ pos a ∧ pos a < p') :
    ∀ (fuel p : Nat) (a : α), a ∈ scanFuel step fuel p → p ≤ pos a := by
  intro fuel
  induction fuel with
  | zero => intro p a ha; simp [scanFuel] at ha
  | succ n ih =>
    intro p a ha
    cases hs : step p with
    | none => simp [scanFuel, hs] at ha
    | some x =>
      obtain ⟨b, p'⟩ := x
      simp only [scanFuel, hs, List.mem_cons] at ha
      have hb := hstep p b p' hs
      cases ha with
      | inl h => subst h; exact hb.1
      | inr h => have := ih p' a h; omega

/-- Items emitted by a `scanFuel` scan have strictly increasing offsets. -/
theorem scanFuel_chain {α : Type} (step : Nat → Option (α × Nat)) (pos : α → Nat)
    (hstep : ∀ p a p', step p = some (a, p') → p ≤ pos a ∧ pos a < p') :
    ∀ (fuel p : Nat), List.Chain' (fun x y => pos x < pos y) (scanFuel step fuel p) := by
  intro fuel
  induction fuel with
  | zero => intro p; simp [scanFuel]
  | succ n ih =>
    intro p
    cases hs : step p with
    | none => simp [scanFuel, hs]
    | some x =>
      obtain ⟨b, p'⟩ := x
      simp only [scanFuel, hs]
      rw [List.chain'_cons']
      refine ⟨fun y hy => ?_, ih p'⟩
      have h1 := scanFuel_pos_ge step pos hstep n p' y (List.mem_of_mem_head? hy)
      have h2 := hstep p b p' hs
      omega

/-- A successful leftmost search means the anchored matcher succeeds at the
reported offset with the reported answer. -/
theorem searchAux_spec {α : Type} (f : List Char → Option α) :
    ∀ (s : List Char) (j : Nat) (a : α), searchAux f s = some (j, a) → f (s.drop j) = some a := by
  intro s
  induction s with
  | nil =>
    intro j a h
    cases hf : f [] with
    | none => simp [searchAux, hf] at h
    | some b =>
      simp [searchAux, hf] at h
      obtain ⟨h1, h2⟩ := h
      subst h1; subst h2
      simpa using hf
  | cons c rest ih =>
    intro j a h
    cases hf : f (c :: rest) with
    | some b =>
      simp [searchAux, hf] at h
      obtain ⟨h1, h2⟩ := h
      subst h1; subst h2
      simpa using hf
    | none =>
      cases hs : searchAux f rest with
      | none => simp [searchAux, hf, hs] at h
      | some x =>
        obtain ⟨j', a'⟩ := x
        simp [searchAux, hf, hs] at h
        obtain ⟨h1, h2⟩ := h
        subst h1; subst h2
        simpa using ih j' a' hs

/-- Any match the tag-name backtracking reports has positive length. -/
theorem anyTagTry_pos (tail : List Pat) (s : List Char) :
    ∀ (k len : Nat) (g : List Char), anyTagTry tail s k = some (len, g) → 0 < len := by
  intro k
  induction k with
  | zero => intro len g h; simp [anyTagTry] at h
  | succ n ih =>
    intro len g h
    unfold anyTagTry at h
    cases hm : pmatch tail (prevAfter (s.take (n + 1)) (some '<')) (s.drop (n + 1)) with
    | some m =>
      rw [hm] at h
      simp at h
      omega
    | none =>
      rw [hm] at h
      exact ih len g h

/-- Any match of the `getByClass` opening-tag regex has positive length. -/
theorem classMatchAt_pos (tagOpt : Option (List Char)) (cn s : List Char) (len : Nat)
    (g : List Char) (h : classMatchAt tagOpt cn s = some (len, g)) : 0 < len := by
  unfold classMatchAt at h
  split at h
  · split at h
    · split at h
      · split at h
        · simp at h
          omega
        · exact absurd h (by simp)
      · exact absurd h (by simp)
    · exact anyTagTry_pos _ _ _ _ _ h
  · exact absurd h (by simp)

/-- One `getByClass` scan step emits a match at or after the cursor and moves
the cursor strictly past the match start. -/
theorem classStep_spec (html : List Char) (tagOpt : Option (List Char)) (cn : List Char) :
    ∀ p a p', classStep html tagOpt cn p = some (a, p') → p ≤ a.1 ∧ a.1 < p' := by
  intro p a p' h
  unfold classStep at h
  cases hs : searchAux (classMatchAt tagOpt cn) (html.drop p) with
  | none => rw [hs] at h; exact absurd h (by simp)
  | some x =>
    obtain ⟨j, len, g1⟩ := x
    rw [hs] at h
    simp at h
    obtain ⟨h1, h2⟩ := h
    have hmatch := searchAux_spec _ _ _ _ hs
    have hpos := classMatchAt_pos tagOpt cn _ _ _ hmatch
    subst h1; subst h2
    simp
    omega

/-- Claim C9: `getByClass` results are in document order — the regex-scan match
list has strictly increasing start offsets and `getByClass` resolves exactly
that list in order (skipping failures); concretely, three `.item` elements X,
Y, Z in source order are returned in exactly that order. -/
theorem spec_c9_document_order (html className : String) (tag : Option String) :
    getByClass html className tag
      = ((classMatchListL html.data (tag.map String.data) className.data).filterMap
          (fun m : Nat × Nat × List Char => extractElementL html.data m.1 m.2.2)).map String.mk ∧
    List.Chain' (fun a b : Nat × Nat × List Char => a.1 < b.1)
      (classMatchListL html.data (tag.map String.data) className.data) ∧
    getByClass "<a class=\"item\">X</a><a class=\"item\">Y</a><a class=\"item\">Z</a>" "item" none
      = ["<a class=\"item\">X</a>", "<a class=\"item\">Y</a>", "<a class=\"item\">Z</a>"] := by
  refine ⟨rfl, ?_, by decide⟩
  exact scanFuel_chain _ (fun m : Nat × Nat × List Char => m.1) (classStep_spec _ _ _) _ _

/-! ### Element spans end in a closing angle bracket (towards claim C4) -/

/-- A successful `findGt` points inside the list at a `>` character. -/
theorem findGt_spec : ∀ (l : List Char) (k : Nat), findGt l = some k →
    k < l.length ∧ l[k]? = some '>' := by
  intro l
  induction l with
  | nil => intro k h; simp [findGt] at h
  | cons c rest ih =>
    intro k h
    by_cases hc : c = '>'
    · subst hc
      simp [findGt] at h
      subst h
      simp
    · simp only [findGt, hc, if_false] at h
      cases hg : findGt rest with
      | none => rw [hg] at h; simp at h
      | some m =>
        rw [hg] at h
        simp at h
        subst h
        obtain ⟨h1, h2⟩ := ih m hg
        refine ⟨by simp; omega, by simpa using h2⟩

/-- A case-insensitive prefix is no longer than the text it matches. -/
theorem prefixCI_length : ∀ {p t : List Char}, prefixCI p t = true → p.length ≤ t.length := by
  intro p
  induction p with
  | nil => intro t _; simp
  | cons a ps ih =>
    intro t h
    cases t with
    | nil => simp [prefixCI] at h
    | cons b ts =>
      simp [prefixCI] at h
      have := ih h.2
      simp
      omega

/-- An opening-tag match is nonempty, fits in the text, and ends with `>`. -/
theorem matchOpenLen_spec {tag s : List Char} {len : Nat}
    (h : matchOpenLen tag s = some len) :
    0 < len ∧ len ≤ s.length ∧ s[len - 1]? = some '>' := by
  unfold matchOpenLen at h
  split at h
  · rename_i rest
    split at h
    · rename_i hpre
      split at h
      · rename_i k hg
        simp at h
        subst h
        obtain ⟨hk1, hk2⟩ := findGt_spec _ _ hg
        have hlen := prefixCI_length hpre
        rw [List.length_drop] at hk1
        rw [List.getElem?_drop] at hk2
        refine ⟨by omega, by simp; omega, ?_⟩
        have hidx : tag.length + k + 2 - 1 = (tag.length + k) + 1 := by omega
        rw [hidx, List.getElem?_cons_succ]
        exact hk2
      · exact absurd h (by simp)
    · exact absurd h (by simp)
  · exact absurd h (by simp)

/-- A closing-tag match is nonempty, fits in the text, and ends with `>`. -/
theorem matchCloseLen_spec {tag s : List Char} {len : Nat}
    (h : matchCloseLen tag s = some len) :
    0 < len ∧ len ≤ s.length ∧ s[len - 1]? = some '>' := by
  unfold matchCloseLen at h
  split at h
  · rename_i rest
    split at h
    · rename_i hpre
      split at h
      · rename_i t heq
        simp at h
        subst h
        have hdrop : (rest.drop tag.length)[0]? = some '>' := by rw [heq]; simp
        rw [List.getElem?_drop] at hdrop
        have hlt : tag.length < rest.length := by
          have hld : (rest.drop tag.length).length = rest.length - tag.length :=
            List.length_drop _ _
          rw [heq] at hld
          simp at hld
          omega
        refine ⟨by omega, by simp; omega, ?_⟩
        have hidx : tag.length + 3 - 1 = tag.length + 1 + 1 := by omega
        rw [hidx, List.getElem?_cons_succ, List.getElem?_cons_succ]
        simpa using hdrop
      · exact absurd h (by simp)
    · exact absurd h (by simp)
  · exact absurd h (by simp)

/-- Invariant of the extraction cursor loop: starting from a cursor that sits
just past a `>` inside the document, the final cursor never moves backwards,
stays inside the document, and still sits just past a `>`. -/
theorem extractLoop_good (html tag : List Char) :
    ∀ (fuel depth pos : Nat), 0 < pos → pos ≤ html.length → html[pos - 1]? = some '>' →
      pos ≤ extractLoop html tag fuel depth pos ∧
      extractLoop html tag fuel depth pos ≤ html.length ∧
      html[extractLoop html tag fuel depth pos - 1]? = some '>' := by
  intro fuel
  induction fuel with
  | zero => intro depth pos h1 h2 h3; simp only [extractLoop]; exact ⟨le_refl _, h2, h3⟩
  | succ n ih =>
    intro depth pos h1 h2 h3
    simp only [extractLoop]
    split
    · exact ⟨le_refl _, h2, h3⟩
    · split
      · exact ⟨le_refl _, h2, h3⟩
      · rename_i x nc cLen hclose
        have hcl := searchAux_spec _ _ _ _ hclose
        rw [List.drop_drop] at hcl
        have hcs := matchCloseLen_spec hcl
        rw [List.length_drop, List.getElem?_drop] at hcs
        obtain ⟨hc1, hc2, hc3⟩ := hcs
        have hidxc : pos + nc + (cLen - 1) = pos + nc + cLen - 1 := by omega
        rw [hidxc] at hc3
        split
        · rename_i y no oLen hopen
          have hol := searchAux_spec _ _ _ _ hopen
          rw [List.drop_drop] at hol
          have hos := matchOpenLen_spec hol
          rw [List.length_drop, List.getElem?_drop] at hos
          obtain ⟨ho1, ho2, ho3⟩ := hos
          have hidxo : pos + no + (oLen - 1) = pos + no + oLen - 1 := by omega
          rw [hidxo] at ho3
          split
          · have hrec := ih (depth + 1) (pos + no + oLen) (by omega) (by omega) ho3
            exact ⟨by omega, hrec.2.1, hrec.2.2⟩
          · have hrec := ih (depth - 1) (pos + nc + cLen) (by omega) (by omega) hc3
            exact ⟨by omega, hrec.2.1, hrec.2.2⟩
        · have hrec := ih (depth - 1) (pos + nc + cLen) (by omega) (by omega) hc3
          exact ⟨by omega, hrec.2.1, hrec.2.2⟩

/-- Every span `extractElementL` returns is nonempty and ends with `>`
(it always ends just past an opening or closing tag's `>`). -/
theorem extractElementL_lastGt {html tag e : List Char} {startPos : Nat}
    (h : extractElementL html startPos tag = some e) :
    e ≠ [] ∧ e.getLast? = some '>' := by
  unfold extractElementL at h
  split at h
  · exact absurd h (by simp)
  · rename_i ol hopen
    simp at h
    have hos := matchOpenLen_spec hopen
    rw [List.length_drop, List.getElem?_drop] at hos
    obtain ⟨ho1, ho2, ho3⟩ := hos
    have hidx : startPos + (ol - 1) = startPos + ol - 1 := by omega
    rw [hidx] at ho3
    have hloop := extractLoop_good html tag (html.length + 1) 1 (startPos + ol)
      (by omega) (by omega) ho3
    set q := extractLoop html tag (html.length + 1) 1 (startPos + ol) with hq
    obtain ⟨hl1, hl2, hl3⟩ := hloop
    have hlen : ((html.drop startPos).take (q - startPos)).length = q - startPos := by
      rw [List.length_take, List.length_drop]
      exact inf_eq_left.mpr (by omega)
    subst h
    refine ⟨?_, ?_⟩
    · apply List.ne_nil_of_length_pos
      rw [hlen]
      omega
    · rw [List.getLast?_eq_getElem?, hlen, List.getElem?_take, if_pos (by omega),
        List.getElem?_drop]
      have hidx2 : startPos + (q - startPos - 1) = q - 1 := by omega
      rw [hidx2]
      exact hl3

/-- Every element of the tag scan arises from a successful extraction. -/
theorem getByTagL_mem {html tag e : List Char} (h : e ∈ getByTagL html tag) :
    ∃ i, extractElementL html i tag = some e := by
  unfold getByTagL at h
  rw [List.mem_filterMap] at h
  obtain ⟨i, _, hi⟩ := h
  exact ⟨i, hi⟩

/-! ### Tag stripping leaves no angle-bracket openers (claim C4, amended) -/

/-- The tail of a covered list is covered. -/
theorem ltCovered_tail {c : Char} {rest : List Char} (h : ltCovered (c :: rest) = true) :
    ltCovered rest = true := by
  unfold ltCovered at h
  exact (Bool.and_eq_true _ _ |>.mp h).2

/-- A covered list headed by `<` has a `>` in its tail. -/
theorem ltCovered_head_lt {rest : List Char} (h : ltCovered ('<' :: rest) = true) :
    rest.contains '>' = true := by
  unfold ltCovered at h
  have h1 := (Bool.and_eq_true _ _ |>.mp h).1
  simpa using h1

/-- Dropping through a `>` never lengthens a list. -/
theorem dropThroughGt_length : ∀ l : List Char, (dropThroughGt l).length ≤ l.length := by
  intro l
  induction l with
  | nil => simp [dropThroughGt]
  | cons c rest ih =>
    by_cases hc : c = '>'
    · simp [dropThroughGt, hc]
    · simp only [dropThroughGt, hc, if_false]
      simp
      omega

/-- Coverage survives dropping one removed tag. -/
theorem ltCovered_dropThroughGt : ∀ l : List Char, ltCovered l = true →
    ltCovered (dropThroughGt l) = true := by
  intro l
  induction l with
  | nil => intro h; simpa [dropThroughGt] using h
  | cons c rest ih =>
    intro h
    by_cases hc : c = '>'
    · simp only [dropThroughGt, hc, if_pos rfl]
      exact ltCovered_tail h
    · simp only [dropThroughGt, hc, if_false]
      exact ih (ltCovered_tail h)

/-- Stripping a covered list leaves no `<` behind: every `<` begins a removed
`<[^>]*>` match, and what that match drops preserves coverage. -/
theorem stripTagsFuel_no_lt : ∀ (fuel : Nat) (s : List Char), s.length < fuel →
    ltCovered s = true → '<' ∉ stripTagsFuel fuel s := by
  intro fuel
  induction fuel with
  | zero => intro s h _; exact absurd h (by omega)
  | succ n ih =>
    intro s hlen hcov
    cases s with
    | nil => simp [stripTagsFuel]
    | cons c rest =>
      by_cases hc : c = '<'
      · subst hc
        have hcontains := ltCovered_head_lt hcov
        have hred : stripTagsFuel (n + 1) ('<' :: rest) = stripTagsFuel n (dropThroughGt rest) := by
          simp only [stripTagsFuel]
          rw [if_pos trivial, if_pos hcontains]
        rw [hred]
        apply ih
        · have := dropThroughGt_length rest
          simp at hlen
          omega
        · exact ltCovered_dropThroughGt rest (ltCovered_tail hcov)
      · have hred : stripTagsFuel (n + 1) (c :: rest) = c :: stripTagsFuel n rest := by
          simp [stripTagsFuel, hc]
        rw [hred, List.mem_cons, not_or]
        refine ⟨fun hh => hc hh.symm, ?_⟩
        apply ih
        · simp at hlen; omega
        · exact ltCovered_tail hcov

/-- A list ending in `>` is covered. -/
theorem lastGt_ltCovered : ∀ l : List Char, l.getLast? = some '>' → ltCovered l = true := by
  intro l
  induction l with
  | nil => intro h; simp at h
  | cons c rest ih =>
    intro h
    cases rest with
    | nil =>
      rw [List.getLast?_singleton] at h
      simp at h
      subst h
      decide
    | cons d t =>
      rw [List.getLast?_cons_cons] at h
      have hcov := ih h
      have hmem : '>' ∈ d :: t := by
        have h0 : (d :: t)[(d :: t).length - 1]? = some '>' := by
          rw [← List.getLast?_eq_getElem?]
          exact h
        exact List.getElem?_mem h0
      unfold ltCovered
      rw [Bool.and_eq_true]
      refine ⟨?_, hcov⟩
      by_cases hc : c = '<'
      · simp only [hc, if_pos rfl]
        show List.elem '>' (d :: t) = true
        exact List.elem_iff.mpr hmem
      · simp [hc]

/-- Trimming only removes characters. -/
theorem jsTrim_mem {l : List Char} {c : Char} (h : c ∈ jsTrim l) : c ∈ l := by
  unfold jsTrim at h
  rw [List.mem_reverse] at h
  have h2 : c ∈ (l.dropWhile Char.isWhitespace).reverse :=
    List.Sublist.mem h (List.dropWhile_sublist _)
  rw [List.mem_reverse] at h2
  exact List.Sublist.mem h2 (List.dropWhile_sublist _)

/-- Claim C4 (amended): `getText` strips every `<[^>]*>` match and trims
surrounding whitespace; every element `getByTag(html, "p")` returns ends with
`>`, so its `getText` contains no `<` character — but it may still contain a
bare `>` (see the counterexample), so the claim's "no `>`" half fails. -/
theorem spec_c4_amended (html : String) (i : Nat)
    (h : i < (getByTag html "p" none).length) :
    '<' ∉ (getText ((getByTag html "p" none).get ⟨i, h⟩)).data := by
  have hmem : (getByTag html "p" none).get ⟨i, h⟩
      ∈ (getByTagL html.data "p".data).map String.mk :=
    List.get_mem _ _ _
  rw [List.mem_map] at hmem
  obtain ⟨e, he, heq⟩ := hmem
  obtain ⟨j, hj⟩ := getByTagL_mem he
  obtain ⟨hne, hlast⟩ := extractElementL_lastGt hj
  rw [← heq]
  intro hin
  have hin2 : '<' ∈ jsTrim (stripTags e) := hin
  have h1 : '<' ∈ stripTags e := jsTrim_mem hin2
  have h2 := lastGt_ltCovered e hlast
  exact stripTagsFuel_no_lt (e.length + 1) e (by omega) h2 h1

/-- Claim C4 witness: the amended no-`<` theorem applied at a concrete document. -/
theorem spec_c4_witness :
    '<' ∉ (getText ((getByTag "<p>x</p>" "p" none).get ⟨0, by decide⟩)).data :=
  spec_c4_amended "<p>x</p>" 0 (by decide)
